import Mathlib

/-
Verification of the CodeChat Editor client (src/client/src/CodeChatEditor.mjs).

This file gives a shallow embedding of the functions
`classified_source_to_html`, `_exit_state`, `editor_to_code_doc_blocks`,
`doc_block_indent_on_before_input`, `save` and `escapeHTML`, and proves
properties of the classification/render pipeline stated in the design
documents.

Modelling conventions:
- JavaScript strings are Lean `String` (a list of characters); the JS
  regular expressions used by the source are one-character or two-character
  patterns, embedded as explicit recursions on `List Char`.
- The `delimiter` field of a classified triple is a JS value that is either
  a string or `null`; it is embedded as the inductive `Delim`.
- The `current_delimiter` loop variable additionally starts as the number
  `-2`; the extra sentinel state is the inductive `CurDelim`.
- The JS `TypeError` thrown by `m[0]` when `m` is `null` (which happens in
  `classified_source_to_html` when a continuation line has no trailing
  newline) is embedded with `Option`: `none` is the thrown exception.
-/

set_option maxRecDepth 2000

namespace CodeChatEditor

/-- The JS value stored in the `delimiter` field of a classified triple:
either a string (possibly empty) or `null`. -/
inductive Delim
| str (s : String)
| null
deriving DecidableEq, Repr

/-- The JS value of the loop variable `current_delimiter` in
`classified_source_to_html`: it is initialised to the number `-2`
(a sentinel equal to no string and not to `null` under `!==`), and
afterwards always holds a `Delim`. -/
inductive CurDelim
| sentinel
| val (d : Delim)
deriving DecidableEq, Repr

/-- One element of `classified_source`: the `[indent, delimiter, contents]`
triple destructured by the `for` loop of `classified_source_to_html`. -/
structure Triple where
  indent : String
  delimiter : Delim
  contents : String
deriving DecidableEq, Repr

/-- JS `s.replaceAll(pat, rep)` for a one-character pattern `pat`:
each occurrence of the character is replaced by `rep`. -/
def replaceAllChar (pat : Char) (rep : List Char) : List Char → List Char
| [] => []
| c :: rest => (if c = pat then rep else [c]) ++ replaceAllChar pat rep rest

/-- `escapeHTML` (CodeChatEditor.mjs, lines 446-452): replace `&` first,
then `<`, then `>`. -/
def escapeHTML (unsafeText : String) : String :=
  let t1 := String.mk (replaceAllChar '&' "&amp;".data unsafeText.data)
  let t2 := String.mk (replaceAllChar '<' "&lt;".data t1.data)
  String.mk (replaceAllChar '>' "&gt;".data t2.data)

/-- JS `contents.match(/\n$/)` (line 286): in JS, `$` without the `m` flag
matches only at the very end of the input, so the regexp matches exactly
when the last character is `'\n'`, and the match text is `"\n"`. -/
def jsMatchNl (s : String) : Option String :=
  if s.data.getLast? = some '\n' then some "\n" else none

/-- `contents` after the conditional reassignment on lines 287-289:
`contents.substring(0, m.index)` drops the matched final newline. -/
def jsStripNl (s : String) : String :=
  if s.data.getLast? = some '\n' then String.mk s.data.dropLast else s

/-- The number of matches of the JS regexp `/\n|\r\n|\r/g` (line 339).
The alternatives are tried in order at each position, so a `"\r\n"` pair
counts as a single terminator. -/
def termCount : List Char → Nat
| [] => 0
| '\n' :: rest => termCount rest + 1
| '\r' :: '\n' :: rest => termCount rest + 1
| '\r' :: rest => termCount rest + 1
| _ :: rest => termCount rest

/-- The string interpolated for `${delimiter}` in a JS template literal:
`null` renders as `"null"`. -/
def delimText : Delim → String
| Delim.str s => s
| Delim.null => "null"

/-- The opening markup for a code block (the template literal of
lines 300-302), parameterised by the current line number. -/
def aceOpen (line : Nat) : String :=
  "\n<div class=\"CodeChat-code\">\n    <div class=\"CodeChat-ACE\" data-CodeChat-firstLineNumber=\"" ++
    toString line ++ "\">"

/-- The opening markup for a doc block (the concatenated template literals
of lines 313-323), parameterised by the indent and delimiter. -/
def docOpen (indent : String) (delimiter : Delim) : String :=
  "<div class=\"CodeChat-doc\">\n    <table>\n        <tbody>\n            <tr>\n" ++
  "                <td class=\"CodeChat-ACE-gutter-padding ace_editor\">&nbsp;&nbsp;&nbsp</td>\n                <td class=\"CodeChat-ACE-padding\"></td>" ++
  "                <td class=\"ace_editor CodeChat-doc-indent\" contenteditable onpaste=\"return false\">" ++
  indent ++
  "</td>\n                <td class=\"CodeChat-TinyMCE-td\"><div class=\"CodeChat-TinyMCE\" data-CodeChat-comment=\"" ++
  delimText delimiter ++ "\">"

/-- The closing markup for a code block (line 359). -/
def codeClose : String := "</div>\n</div>\n"

/-- The closing markup for a doc block (the template literal of
lines 366-371). -/
def docClose : String :=
  "</td>\n            </tr>\n        </tbody>\n    </table>\n</div>\n"

/-- `_exit_state` (lines 351-374): push the code-block close when the
delimiter is the empty string, the doc-block close when it is any other
string (`typeof delimiter === "string"`), and nothing otherwise (the
number `-2` and `null` both fail both tests). -/
def exit_state (delimiter : CurDelim) : List String :=
  if delimiter = CurDelim.val (Delim.str "") then [codeClose]
  else
    match delimiter with
    | CurDelim.val (Delim.str _) => [docClose]
    | _ => []

/-- The two strings pushed when entering a new state (lines 297-326):
an ACE editor block with HTML-escaped contents for the empty-string
delimiter, a TinyMCE doc block with raw contents otherwise. -/
def openChunks (line : Nat) (t : Triple) : List String :=
  if t.delimiter = Delim.str "" then
    [aceOpen line, escapeHTML (jsStripNl t.contents)]
  else
    [docOpen t.indent t.delimiter, jsStripNl t.contents]

/-- The content string pushed for a continuation line (line 331):
escaped for code, raw for doc. -/
def contChunk (d : Delim) (contents : String) : String :=
  if d = Delim.str "" then escapeHTML (jsStripNl contents) else jsStripNl contents

/-- The loop state of `classified_source_to_html`: the `html` output array,
`current_delimiter` and `line`. -/
structure St where
  html : List String
  current : CurDelim
  line : Nat
deriving DecidableEq, Repr

/-- One iteration of the `for` loop of `classified_source_to_html`
(lines 278-340).  On a state change the current state is exited and the new
block is opened; otherwise `html.push(m[0], ...)` is executed, which throws
a `TypeError` (`none`) when `m` is `null`, i.e. when the current contents
have no trailing newline.  In both branches `current_delimiter` is updated
and `line` grows by one plus the number of terminators left in the stripped
contents. -/
def step (st : St) (t : Triple) : Option St :=
  if st.current ≠ CurDelim.val t.delimiter then
    some { html := st.html ++ exit_state st.current ++ openChunks st.line t,
           current := CurDelim.val t.delimiter,
           line := st.line + 1 + termCount (jsStripNl t.contents).data }
  else
    match jsMatchNl t.contents with
    | none => none
    | some nl =>
      some { html := st.html ++ [nl, contChunk t.delimiter t.contents],
             current := CurDelim.val t.delimiter,
             line := st.line + 1 + termCount (jsStripNl t.contents).data }

/-- The `for` loop, iterated over the whole input. -/
def runSteps : St → List Triple → Option St
| st, [] => some st
| st, t :: ts =>
  match step st t with
  | none => none
  | some st2 => runSteps st2 ts

/-- The initial loop state: empty output, `current_delimiter = -2`,
`line = 1`. -/
def initSt : St := { html := [], current := CurDelim.sentinel, line := 1 }

/-- `classified_source_to_html` (lines 267-345): run the loop, exit the
final state, and join the accumulated strings.  `none` is the propagated
`TypeError` described at `step`. -/
def classified_source_to_html (classified_source : List Triple) : Option String :=
  (runSteps initSt classified_source).map
    (fun st => String.join (st.html ++ exit_state st.current))

/-- JS `" ".repeat(n)` (line 180). -/
def jsRepeat (s : String) : Nat → String
| 0 => ""
| n + 1 => s ++ jsRepeat s n

/-- `doc_block_indent_on_before_input` (lines 175-184), returning whether
`event.preventDefault()` is called.  `event.data` is `null` for deletions
(modelled as `none`); `if (event.data)` is falsy for `null` and for the
empty string; otherwise the insert is blocked exactly when the data is not
a string of spaces of its own length. -/
def doc_block_indent_on_before_input (data : Option String) : Bool :=
  match data with
  | none => false
  | some d =>
    if d = "" then false
    else if d = jsRepeat " " d.length then false else true

/-- The possible outcomes of the `PUT` request issued by `save`
(lines 240-264): the `fetch` promise rejecting; or a response with its
`ok` flag, status data, and (for `ok` responses) whether the parsed body's
`success` field is strictly equal (`===`) to `true`. -/
inductive FetchOutcome
| reject (error : String)
| response (ok : Bool) (status : Nat) (statusText : String) (success : Bool)

/-- `save` (lines 240-264), returning the list of alerts raised.  Every
branch of the source returns normally (the embedding is a total function):
a rejected fetch is caught and alerted; an `ok` response alerts unless
`response_body.success === true`; a non-`ok` response alerts with the
status. -/
def save : FetchOutcome → List String
| FetchOutcome.reject error => ["Save failed -- " ++ error ++ "."]
| FetchOutcome.response ok status statusText success =>
  if ok then
    (if success then [] else ["Save failed."])
  else
    ["Save failed -- server returned " ++ toString status ++ ", " ++ statusText ++ "."]

/-- The effect of the `escapeHTML` replacement chain on one character:
`&` must be escaped first, so the composite acts character by character. -/
def escChar (c : Char) : List Char :=
  if c = '&' then "&amp;".data
  else if c = '<' then "&lt;".data
  else if c = '>' then "&gt;".data
  else [c]

/-- The character-by-character form of `escapeHTML` (proved equal to it in
`escapeHTML_data` below). -/
def escCharMap : List Char → List Char
| [] => []
| c :: rest => escChar c ++ escCharMap rest

/-- A decoder for `escCharMap`, used to prove `escapeHTML` injective:
every `&` in escaped output is the start of `&amp;`, `&lt;` or `&gt;`, so
decoding is unambiguous. -/
def unescape : List Char → List Char
| '&' :: 'a' :: 'm' :: 'p' :: ';' :: rest => '&' :: unescape rest
| '&' :: 'l' :: 't' :: ';' :: rest => '<' :: unescape rest
| '&' :: 'g' :: 't' :: ';' :: rest => '>' :: unescape rest
| c :: rest => c :: unescape rest
| [] => []

/-- The loop state of the specification-side rendering (below), which
additionally remembers the newline removed from the previous triple. -/
structure SpecSt where
  html : List String
  current : CurDelim
  line : Nat
  deferred : Option String
deriving DecidableEq, Repr

/-- Modelled from the spec's trailing-newline-migration rule, for
comparison with `step`: remove one trailing newline (if present) from the
current contents, and on a continuation line prepend the newline removed
from the *previous* triple (nothing when none was removed), instead of the
current triple's own match `m[0]` that the source pushes.  All other
behaviour (state changes, line counting) is identical to `step`. -/
def stepSpec (st : SpecSt) (t : Triple) : SpecSt :=
  if st.current ≠ CurDelim.val t.delimiter then
    { html := st.html ++ exit_state st.current ++ openChunks st.line t,
      current := CurDelim.val t.delimiter,
      line := st.line + 1 + termCount (jsStripNl t.contents).data,
      deferred := jsMatchNl t.contents }
  else
    { html := st.html ++ [st.deferred.getD "", contChunk t.delimiter t.contents],
      current := CurDelim.val t.delimiter,
      line := st.line + 1 + termCount (jsStripNl t.contents).data,
      deferred := jsMatchNl t.contents }

/-- The specification-side loop. -/
def runSpec : SpecSt → List Triple → SpecSt
| st, [] => st
| st, t :: ts => runSpec (stepSpec st t) ts

/-- The specification-side initial state. -/
def initSpecSt : SpecSt :=
  { html := [], current := CurDelim.sentinel, line := 1, deferred := none }

/-- The specification-side rendering: like `classified_source_to_html` but
with the migration rule as the spec words it (and total: no `TypeError`). -/
def classified_source_to_html_spec (input : List Triple) : String :=
  String.join ((runSpec initSpecSt input).html ++
    exit_state (runSpec initSpecSt input).current)

/-- Forget the specification-side state's deferred newline, leaving a
source-side loop state. -/
def projSpec (sp : SpecSt) : St :=
  { html := sp.html, current := sp.current, line := sp.line }

/-- Group a triple sequence into its maximal runs of equal delimiters,
each run as its first triple plus the remaining triples of the run. -/
def groupRuns : List Triple → List (Triple × List Triple)
| [] => []
| t :: ts =>
  match groupRuns ts with
  | [] => [(t, [])]
  | (u, run) :: gs =>
    if t.delimiter = u.delimiter then (t, u :: run) :: gs
    else (t, []) :: (u, run) :: gs

/-- The number of source lines covered by the given triples, as counted by
the `line` update of the loop. -/
def runLinesCount : List Triple → Nat
| [] => 0
| t :: ts => 1 + termCount (jsStripNl t.contents).data + runLinesCount ts

/-- The chunks pushed for the continuation triples of one run: each
contributes the reinserted newline followed by its stripped contents. -/
def interChunks (d : Delim) : List Triple → List String
| [] => []
| t :: ts => "\n" :: contChunk d t.contents :: interChunks d ts

/-- The chunks emitted for one maximal run: exactly one editor-region
opening (ACE or TinyMCE, per `openChunks`), the run's contents separated
by the reinserted newlines, and the closing markup of `_exit_state`. -/
def renderRun (line : Nat) (t : Triple) (run : List Triple) : List String :=
  openChunks line t ++ interChunks t.delimiter run ++
    exit_state (CurDelim.val t.delimiter)

/-- The chunks emitted for a whole grouped sequence, threading the first
line number of each run. -/
def renderGroups : Nat → List (Triple × List Triple) → List String
| _, [] => []
| line, (t, run) :: gs =>
  renderRun line t run ++
    renderGroups (line + 1 + termCount (jsStripNl t.contents).data + runLinesCount run) gs

/-- Split a sequence into its leading run of triples whose delimiter is `d`
and the remainder. -/
def splitRun (d : Delim) : List Triple → List Triple × List Triple
| [] => ([], [])
| t :: ts =>
  if t.delimiter = d then
    (t :: (splitRun d ts).1, (splitRun d ts).2)
  else ([], t :: ts)

/-- The state after the state-change branch of `step` (opening a block). -/
def afterOpen (st : St) (t : Triple) : St :=
  { html := st.html ++ exit_state st.current ++ openChunks st.line t,
    current := CurDelim.val t.delimiter,
    line := st.line + 1 + termCount (jsStripNl t.contents).data }

/-- The state after running the continuation triples of one run. -/
def afterRun (st : St) (d : Delim) (run : List Triple) : St :=
  { html := st.html ++ interChunks d run, current := st.current,
    line := st.line + runLinesCount run }

/-- The `line` values emitted into `data-CodeChat-firstLineNumber` by each
code-block opening, in order: the loop of `classified_source_to_html` with
the `html` output replaced by the list of line numbers at which the
code-opening branch (state change into the empty-string delimiter) runs. -/
def runLines : St → List Triple → Option (List Nat)
| _, [] => some []
| st, t :: ts =>
  match step st t with
  | none => none
  | some st2 =>
    (runLines st2 ts).map
      (fun ls =>
        (if st.current ≠ CurDelim.val t.delimiter ∧ t.delimiter = Delim.str ""
         then [st.line] else []) ++ ls)

/-- The `data-CodeChat-firstLineNumber` values of a whole input. -/
def firstLineNumbers (input : List Triple) : Option (List Nat) :=
  runLines initSt input

/-- Modelled from claim C10's words: at each code-block opening the
attribute should equal one plus the total number of line terminators
(`\n`, `\r\n`, or `\r`) in the contents of all earlier triples.  `prev` is
the previous delimiter state and `total` the terminator count so far. -/
def claimLines (prev : CurDelim) (total : Nat) : List Triple → List Nat
| [] => []
| t :: ts =>
  (if prev ≠ CurDelim.val t.delimiter ∧ t.delimiter = Delim.str ""
   then [1 + total] else []) ++
    claimLines (CurDelim.val t.delimiter) (total + termCount t.contents.data) ts

/-- One editor region as read back by `editor_to_code_doc_blocks`
(lines 378-437): an ACE code block with its `getValue()` string, or a
TinyMCE doc block with the indent cell's text, the
`data-CodeChat-comment` attribute (`none` when absent, in which case the
source uses `null`), and its content string after `html_beautify`
(`html_beautify` is an external collaborator; its output is taken as the
block's text). -/
inductive EditorBlock
| ace (value : String)
| tinymce (indent : String) (comment_attr : Option String) (content : String)
deriving DecidableEq, Repr

/-- The `(indent, delimiter, full_string)` values computed for one block
(lines 387-421): an ACE block keeps the initial `indent = ""` and
`delimiter = ""`; a TinyMCE block keeps them too when `is_doc_only()`
holds, and otherwise reads the indent cell and the comment attribute
(`?? null`).  When that attribute is absent, `delimiter` is `null` and
the `html_beautify` options on line 420 evaluate `delimiter.length`,
throwing a `TypeError` before any triples for this block are produced;
the thrown exception is modelled as `none`. -/
def blockFields (is_doc_only : Bool) : EditorBlock → Option (String × Delim × String)
| EditorBlock.ace v => some ("", Delim.str "", v)
| EditorBlock.tinymce ind attr content =>
  if is_doc_only then some ("", Delim.str "", content)
  else
    match attr with
    | some s => some (ind, Delim.str s, content)
    | none => none

/-- JS `full_string.split(/\r?\n/)` (line 431): split on `\n` or `\r\n`
(a lone `\r` is not a separator). -/
def split_crlf : List Char → List (List Char)
| [] => [[]]
| '\n' :: rest => [] :: split_crlf rest
| '\r' :: '\n' :: rest => [] :: split_crlf rest
| c :: rest =>
  match split_crlf rest with
  | [] => [[c]]
  | l :: ls => (c :: l) :: ls

/-- The triples pushed for one block (lines 431-433): one per line of the
split, each with `"\n"` appended to the line. -/
def lineTriples : String × Delim × String → List Triple
| (indent, delimiter, full_string) =>
  (split_crlf full_string.data).map
    (fun line => ⟨indent, delimiter, String.mk (line ++ ['\n'])⟩)

/-- `editor_to_code_doc_blocks` (lines 378-437): walk the editor blocks in
order, pushing the per-line triples of each; `none` is the propagated
`TypeError` described at `blockFields` (the exception aborts the whole
function, so no triple list is returned). -/
def editor_to_code_doc_blocks (is_doc_only : Bool) : List EditorBlock → Option (List Triple)
| [] => some []
| b :: bs =>
  match blockFields is_doc_only b with
  | none => none
  | some f =>
    (editor_to_code_doc_blocks is_doc_only bs).map (fun rest => lineTriples f ++ rest)

/-- The concatenation of the `content` fields of a triple sequence. -/
def concatContents : List Triple → String
| [] => ""
| t :: ts => t.contents ++ concatContents ts

/-- The text of one editor block (the `full_string` read from it). -/
def blockText : EditorBlock → String
| EditorBlock.ace v => v
| EditorBlock.tinymce _ _ content => content

/-- The concatenated text of the editor's blocks. -/
def editorText : List EditorBlock → String
| [] => ""
| b :: bs => blockText b ++ editorText bs

/-- Modelled from the amended claim C2: each `\r\n` terminator replaced by
`\n` (a lone `\r` is untouched, since `/\r?\n/` does not split on it). -/
def normalize_crlf : List Char → List Char
| [] => []
| '\r' :: '\n' :: rest => '\n' :: normalize_crlf rest
| c :: rest => c :: normalize_crlf rest

/-- Modelled from the amended claim C2: the concatenation over blocks of
the block's text with terminators normalized and one final `\n` appended. -/
def normalizedText : List EditorBlock → String
| [] => ""
| b :: bs =>
  String.mk (normalize_crlf (blockText b).data ++ ['\n']) ++ normalizedText bs

/-- The concatenation of a list of split lines, each closed by `\n`. -/
def joinLines : List (List Char) → List Char
| [] => []
| l :: ls => l ++ '\n' :: joinLines ls

/-- C9: `classified_source_to_html` applied to the empty sequence returns
the empty string: the loop body never runs, and `_exit_state` emits nothing
for the initial sentinel `-2`, which is neither the empty string nor of
string type. -/
theorem c9_empty_input : classified_source_to_html [] = some "" := rfl

/-- C3: delimiter discrimination.  On a state change, an empty-string
delimiter opens an ACE code block whose contents are HTML-escaped, and a
non-empty string delimiter opens a TinyMCE doc block carrying the triple's
indent and delimiter with the contents unescaped; `_exit_state` closes a
code block for the empty-string delimiter and a doc block for every other
string delimiter. -/
theorem c3_delimiter_discrimination :
    (∀ (st : St) (ind c : String), st.current ≠ CurDelim.val (Delim.str "") →
      step st ⟨ind, Delim.str "", c⟩ = some
        { html := st.html ++ exit_state st.current ++
            [aceOpen st.line, escapeHTML (jsStripNl c)],
          current := CurDelim.val (Delim.str ""),
          line := st.line + 1 + termCount (jsStripNl c).data })
  ∧ (∀ (st : St) (ind s c : String), s ≠ "" →
      st.current ≠ CurDelim.val (Delim.str s) →
      step st ⟨ind, Delim.str s, c⟩ = some
        { html := st.html ++ exit_state st.current ++
            [docOpen ind (Delim.str s), jsStripNl c],
          current := CurDelim.val (Delim.str s),
          line := st.line + 1 + termCount (jsStripNl c).data })
  ∧ exit_state (CurDelim.val (Delim.str "")) = [codeClose]
  ∧ ∀ s : String, s ≠ "" → exit_state (CurDelim.val (Delim.str s)) = [docClose] := by
  refine ⟨?_, ?_, rfl, ?_⟩
  · intro st ind c h
    simp [step, openChunks, h]
  · intro st ind s c hs h
    simp [step, openChunks, h, hs]
  · intro s hs
    simp [exit_state, hs]

/-- Witness for C3 at concrete inputs. -/
theorem c3_witness :
    step initSt ⟨"", Delim.str "", "x\n"⟩ = some
      { html := initSt.html ++ exit_state initSt.current ++
          [aceOpen initSt.line, escapeHTML (jsStripNl "x\n")],
        current := CurDelim.val (Delim.str ""),
        line := initSt.line + 1 + termCount (jsStripNl "x\n").data }
    ∧ exit_state (CurDelim.val (Delim.str "#")) = [docClose] :=
  ⟨c3_delimiter_discrimination.1 initSt "" "x\n" (by decide),
   c3_delimiter_discrimination.2.2.2 "#" (by decide)⟩

/-- C4: a triple with `null` delimiter is opened as a doc block, but
`_exit_state` tests `typeof delimiter === "string"`, which is false for
`null` (`typeof null` is `"object"`), so no closing markup is ever emitted
for it: the rendered output of a single null-delimiter triple is the doc
opening followed by the contents, with no doc close. -/
theorem c4_null_delimiter_not_closed :
    exit_state (CurDelim.val Delim.null) = []
    ∧ classified_source_to_html [⟨"", Delim.null, "x\n"⟩] =
        some (String.join [docOpen "" Delim.null, "x"]) := by
  constructor
  · rfl
  · have h1 : jsStripNl "x\n" = "x" := rfl
    simp [classified_source_to_html, runSteps, step, openChunks, exit_state, initSt, h1]

lemma jsRepeat_space_data (n : Nat) : (jsRepeat " " n).data = List.replicate n ' ' := by
  induction n with
  | zero => rfl
  | succ n ih =>
    show (" " ++ jsRepeat " " n).data = _
    rw [String.data_append, ih]
    rfl

lemma string_eq_of_data_eq {a b : String} (h : a.data = b.data) : a = b :=
  congrArg String.mk h

/-- C6: for a `beforeinput` event carrying a non-empty `data` string, the
insertion is prevented if and only if the data contains a character other
than a space. -/
theorem c6_indent_spaces_only (d : String) (hd : d ≠ "") :
    doc_block_indent_on_before_input (some d) = true ↔ ∃ c ∈ d.data, c ≠ ' ' := by
  constructor
  · intro h
    by_contra hall
    push_neg at hall
    have hdata : d.data = List.replicate d.length ' ' :=
      List.eq_replicate_iff.mpr ⟨rfl, hall⟩
    have heq : d = jsRepeat " " d.length := by
      apply string_eq_of_data_eq
      rw [hdata, jsRepeat_space_data]
    have hf : doc_block_indent_on_before_input (some d) = false := by
      simp only [doc_block_indent_on_before_input]
      rw [if_neg hd, if_pos heq]
    rw [hf] at h
    exact Bool.false_ne_true h
  · intro ⟨c, hc, hcs⟩
    have : d ≠ jsRepeat " " d.length := by
      intro he
      rw [he] at hc
      rw [jsRepeat_space_data] at hc
      exact hcs (List.eq_of_mem_replicate hc)
    simp [doc_block_indent_on_before_input, hd, this]

/-- Witness for C6 at a concrete event. -/
theorem c6_witness :
    doc_block_indent_on_before_input (some " x ") = true ↔ ∃ c ∈ " x ".data, c ≠ ' ' :=
  c6_indent_spaces_only " x " (by decide)

/-- C7: `save` never raises: each of the three failure outcomes produces
exactly one alert describing the failure, and the success outcome produces
no alert. -/
theorem c7_save_never_fatal :
    (∀ e, save (FetchOutcome.reject e) = ["Save failed -- " ++ e ++ "."])
  ∧ (∀ st stx succ, save (FetchOutcome.response false st stx succ) =
      ["Save failed -- server returned " ++ toString st ++ ", " ++ stx ++ "."])
  ∧ (∀ st stx, save (FetchOutcome.response true st stx false) = ["Save failed."])
  ∧ (∀ st stx, save (FetchOutcome.response true st stx true) = []) :=
  ⟨fun _ => rfl, fun _ _ _ => rfl, fun _ _ => rfl, fun _ _ => rfl⟩

lemma replaceAllChar_append (p : Char) (r a b : List Char) :
    replaceAllChar p r (a ++ b) = replaceAllChar p r a ++ replaceAllChar p r b := by
  induction a with
  | nil => rfl
  | cons c a ih => simp [replaceAllChar, ih]

lemma escStep (c : Char) :
    replaceAllChar '>' "&gt;".data (replaceAllChar '<' "&lt;".data
      (if c = '&' then "&amp;".data else [c])) = escChar c := by
  by_cases h1 : c = '&'
  · subst h1; rfl
  · by_cases h2 : c = '<'
    · subst h2; rfl
    · by_cases h3 : c = '>'
      · subst h3; rfl
      · simp [replaceAllChar, escChar, h1, h2, h3]

lemma escCharMap_eq (l : List Char) :
    replaceAllChar '>' "&gt;".data (replaceAllChar '<' "&lt;".data
      (replaceAllChar '&' "&amp;".data l)) = escCharMap l := by
  induction l with
  | nil => rfl
  | cons c l ih =>
    show replaceAllChar '>' "&gt;".data (replaceAllChar '<' "&lt;".data
      ((if c = '&' then "&amp;".data else [c]) ++ replaceAllChar '&' "&amp;".data l)) = _
    rw [replaceAllChar_append, replaceAllChar_append, ih, escStep]
    rfl

lemma escapeHTML_data (s : String) : (escapeHTML s).data = escCharMap s.data :=
  escCharMap_eq s.data

lemma unescape_cons_ne (c : Char) (h : c ≠ '&') (rest : List Char) :
    unescape (c :: rest) = c :: unescape rest := by
  conv_lhs => rw [unescape.eq_def]
  split
  · rename_i heq
    injection heq with h1 _
    exact absurd h1 h
  · rename_i heq
    injection heq with h1 _
    exact absurd h1 h
  · rename_i heq
    injection heq with h1 _
    exact absurd h1 h
  · rename_i heq
    injection heq with h1 h2
    subst h1; subst h2
    rfl
  · rename_i heq
    exact absurd heq (List.cons_ne_nil c rest)

lemma unescape_escCharMap (l : List Char) : unescape (escCharMap l) = l := by
  induction l with
  | nil => rfl
  | cons c l ih =>
    show unescape (escChar c ++ escCharMap l) = c :: l
    by_cases h1 : c = '&'
    · subst h1
      show unescape ('&' :: 'a' :: 'm' :: 'p' :: ';' :: escCharMap l) = _
      rw [show ∀ rest, unescape ('&' :: 'a' :: 'm' :: 'p' :: ';' :: rest) =
        '&' :: unescape rest from fun _ => rfl, ih]
    · by_cases h2 : c = '<'
      · subst h2
        show unescape ('&' :: 'l' :: 't' :: ';' :: escCharMap l) = _
        rw [show ∀ rest, unescape ('&' :: 'l' :: 't' :: ';' :: rest) =
          '<' :: unescape rest from fun _ => rfl, ih]
      · by_cases h3 : c = '>'
        · subst h3
          show unescape ('&' :: 'g' :: 't' :: ';' :: escCharMap l) = _
          rw [show ∀ rest, unescape ('&' :: 'g' :: 't' :: ';' :: rest) =
            '>' :: unescape rest from fun _ => rfl, ih]
        · show unescape (escChar c ++ escCharMap l) = c :: l
          rw [show escChar c = [c] by simp [escChar, h1, h2, h3]]
          rw [List.singleton_append, unescape_cons_ne c h1, ih]

lemma escCharMap_inj {l1 l2 : List Char} (h : escCharMap l1 = escCharMap l2) :
    l1 = l2 := by
  have h2 := congrArg unescape h
  rwa [unescape_escCharMap, unescape_escCharMap] at h2

lemma escChar_no_angle (c : Char) : '<' ∉ escChar c ∧ '>' ∉ escChar c := by
  by_cases h1 : c = '&'
  · subst h1; decide
  · by_cases h2 : c = '<'
    · subst h2; decide
    · by_cases h3 : c = '>'
      · subst h3; decide
      · rw [show escChar c = [c] by simp [escChar, h1, h2, h3]]
        exact ⟨fun h => h2 (List.mem_singleton.mp h).symm,
               fun h => h3 (List.mem_singleton.mp h).symm⟩

lemma escCharMap_no_angle (l : List Char) :
    '<' ∉ escCharMap l ∧ '>' ∉ escCharMap l := by
  induction l with
  | nil => simp [escCharMap]
  | cons c l ih =>
    simp only [escCharMap]
    refine ⟨fun h => ?_, fun h => ?_⟩
    · rcases List.mem_append.mp h with h | h
      exacts [(escChar_no_angle c).1 h, ih.1 h]
    · rcases List.mem_append.mp h with h | h
      exacts [(escChar_no_angle c).2 h, ih.2 h]

/-- C8: `escapeHTML` leaves no literal `<` or `>` in its output, and is
injective because `&` is escaped before `<` and `>`: the escaped form is
uniquely decodable. -/
theorem c8_escapeHTML_safe_injective :
    (∀ s : String, '<' ∉ (escapeHTML s).data ∧ '>' ∉ (escapeHTML s).data)
  ∧ ∀ s t : String, escapeHTML s = escapeHTML t → s = t := by
  constructor
  · intro s
    rw [escapeHTML_data]
    exact escCharMap_no_angle s.data
  · intro s t h
    apply string_eq_of_data_eq
    apply escCharMap_inj
    rw [← escapeHTML_data, ← escapeHTML_data, h]

/-- Witness for C8 at concrete inputs. -/
theorem c8_witness :
    ('<' ∉ (escapeHTML "<a&b>").data ∧ '>' ∉ (escapeHTML "<a&b>").data)
    ∧ "<" = "<" :=
  ⟨c8_escapeHTML_safe_injective.1 "<a&b>",
   c8_escapeHTML_safe_injective.2 "<" "<" rfl⟩

lemma split_crlf_ne_nil (l : List Char) : split_crlf l ≠ [] := by
  induction l using split_crlf.induct with
  | case1 => simp [split_crlf]
  | case2 rest ih => simp [split_crlf]
  | case3 rest ih => simp [split_crlf]
  | case4 c rest h1 h2 ih =>
    rw [split_crlf.eq_4 c rest h1 h2, ih]
    simp
  | case5 c rest h1 h2 hd tl hsp ih =>
    rw [split_crlf.eq_4 c rest h1 h2, hsp]
    simp

lemma joinLines_split_crlf (l : List Char) :
    joinLines (split_crlf l) = normalize_crlf l ++ ['\n'] := by
  induction l using split_crlf.induct with
  | case1 => rfl
  | case2 rest ih =>
    rw [split_crlf.eq_2]
    show '\n' :: joinLines (split_crlf rest) = _
    rw [ih]
    rfl
  | case3 rest ih =>
    rw [split_crlf.eq_3]
    show '\n' :: joinLines (split_crlf rest) = _
    rw [ih]
    rfl
  | case4 c rest h1 h2 ih =>
    exact absurd ih (split_crlf_ne_nil rest)
  | case5 c rest h1 h2 hd tl hsp ih =>
    rw [split_crlf.eq_4 c rest h1 h2, hsp]
    show (c :: hd) ++ '\n' :: joinLines tl = _
    rw [normalize_crlf.eq_3 c rest h2]
    have h5 : joinLines (hd :: tl) = normalize_crlf rest ++ ['\n'] := by
      rw [← hsp, ih]
    simp only [joinLines] at h5
    simp [h5]

lemma concatContents_append (a b : List Triple) :
    (concatContents (a ++ b)).data = (concatContents a).data ++ (concatContents b).data := by
  induction a with
  | nil => rfl
  | cons t a ih =>
    show (t.contents ++ concatContents (a ++ b)).data = (t.contents ++ concatContents a).data ++ _
    rw [String.data_append, String.data_append, ih]
    simp

lemma concatContents_lineTriples (f : String × Delim × String) :
    (concatContents (lineTriples f)).data = normalize_crlf f.2.2.data ++ ['\n'] := by
  obtain ⟨ind, d, s⟩ := f
  show (concatContents ((split_crlf s.data).map _)).data = normalize_crlf s.data ++ ['\n']
  rw [← joinLines_split_crlf]
  generalize split_crlf s.data = ls
  induction ls with
  | nil => rfl
  | cons l ls ih =>
    show (String.mk (l ++ ['\n']) ++ concatContents _).data = _
    rw [String.data_append, ih]
    show (l ++ ['\n']) ++ joinLines ls = l ++ '\n' :: joinLines ls
    simp

lemma blockFields_text (flag : Bool) (b : EditorBlock)
    (f : String × Delim × String) (h : blockFields flag b = some f) :
    f.2.2 = blockText b := by
  cases b with
  | ace v =>
    injection h with h1
    rw [← h1]
    rfl
  | tinymce i a ct =>
    cases flag with
    | true =>
      injection h with h1
      rw [← h1]
      rfl
    | false =>
      cases a with
      | none => exact absurd h (by simp [blockFields])
      | some s =>
        simp only [blockFields, Bool.false_eq_true, if_false, Option.some.injEq] at h
        rw [← h]
        rfl

/-- C2 counterexample: the claim fails as stated.  A single empty ACE code
block has block text `""`, but `editor_to_code_doc_blocks` emits the
triple `["", "", "\n"]` (the split of `""` is one empty line, and `"\n"`
is appended to every line), so the concatenated contents are `"\n"`, not
the editor's text: a final newline is always added. -/
theorem c2_counterexample :
    editor_to_code_doc_blocks false [EditorBlock.ace ""] =
      some [⟨"", Delim.str "", "\n"⟩]
    ∧ concatContents [⟨"", Delim.str "", "\n"⟩] ≠ editorText [EditorBlock.ace ""] :=
  ⟨by decide, by decide⟩

/-- C2, amended: whenever `editor_to_code_doc_blocks` completes (it throws
a `TypeError` at `delimiter.length` when a non-doc-only TinyMCE block has
no `data-CodeChat-comment` attribute), the concatenation of the `content`
fields of the produced triples equals, block by block, the block's text
with each `\r\n` terminator replaced by `\n` and one final `\n` appended
(so the text is reproduced byte-for-byte exactly up to terminator
normalization and the guaranteed trailing newline). -/
theorem c2_content_concatenation (is_doc_only : Bool) (blocks : List EditorBlock)
    (ts : List Triple) (h : editor_to_code_doc_blocks is_doc_only blocks = some ts) :
    concatContents ts = normalizedText blocks := by
  induction blocks generalizing ts with
  | nil =>
    injection h with h1
    rw [← h1]
    rfl
  | cons b bs ih =>
    have h2 : (match blockFields is_doc_only b with
          | none => none
          | some f =>
            (editor_to_code_doc_blocks is_doc_only bs).map
              (fun rest => lineTriples f ++ rest)) = some ts := h
    cases hf : blockFields is_doc_only b with
    | none => rw [hf] at h2; exact absurd h2 (by simp)
    | some f =>
      rw [hf] at h2
      cases hrest : editor_to_code_doc_blocks is_doc_only bs with
      | none => rw [hrest] at h2; exact absurd h2 (by simp)
      | some rest =>
        rw [hrest] at h2
        injection h2 with h1
        rw [← h1]
        apply string_eq_of_data_eq
        rw [concatContents_append, concatContents_lineTriples, ih rest hrest,
          blockFields_text is_doc_only b f hf]
        show _ = (String.mk (normalize_crlf (blockText b).data ++ ['\n']) ++
          normalizedText bs).data
        rw [String.data_append]

/-- Witness for C2 at a concrete editor state. -/
theorem c2_witness :
    concatContents [(⟨"", Delim.str "", "a\n"⟩ : Triple)] =
      normalizedText [EditorBlock.ace "a"] :=
  c2_content_concatenation false [EditorBlock.ace "a"] _ (by decide)

lemma stepSpec_deferred (sp : SpecSt) (t : Triple)
    (hm : jsMatchNl t.contents = some "\n") :
    (stepSpec sp t).deferred = some "\n" := by
  by_cases h : sp.current ≠ CurDelim.val t.delimiter <;> simp [stepSpec, h, hm]

lemma step_eq_stepSpec (sp : SpecSt) (t : Triple)
    (hm : jsMatchNl t.contents = some "\n")
    (hdef : sp.current = CurDelim.sentinel ∨ sp.deferred = some "\n") :
    step (projSpec sp) t = some (projSpec (stepSpec sp t)) := by
  by_cases hc : sp.current ≠ CurDelim.val t.delimiter
  · simp [step, stepSpec, projSpec, hc]
  · push_neg at hc
    have hd : sp.deferred = some "\n" := by
      rcases hdef with h | h
      · rw [h] at hc; exact absurd hc.symm (by simp)
      · exact h
    simp [step, stepSpec, projSpec, hc, hm, hd]

lemma runSteps_eq_runSpec (ts : List Triple) (sp : SpecSt)
    (hinv : sp.current = CurDelim.sentinel ∨ sp.deferred = some "\n")
    (hnl : ∀ t ∈ ts, t.contents.data.getLast? = some '\n') :
    runSteps (projSpec sp) ts = some (projSpec (runSpec sp ts)) := by
  induction ts generalizing sp with
  | nil => rfl
  | cons t ts ih =>
    have hm : jsMatchNl t.contents = some "\n" := by
      simp [jsMatchNl, hnl t (List.mem_cons_self t ts)]
    show (match step (projSpec sp) t with
          | none => none
          | some st2 => runSteps st2 ts) = _
    rw [step_eq_stepSpec sp t hm hinv]
    exact ih (stepSpec sp t) (Or.inr (stepSpec_deferred sp t hm))
      (fun u hu => hnl u (List.mem_cons_of_mem t hu))

/-- C1 counterexample: the claim fails as stated on a triple whose content
has no trailing newline.  For the input `[["", "", "a"], ["", "", "b\n"]]`
the migration rule of the spec emits `a` then `b` with nothing between
them (triple 1 had no newline removed, so nothing is prepended to
triple 2), but the source pushes `m[0]` — the newline stripped from the
*current* triple — so it emits `a`, `"\n"`, `b`.  The two rendered strings
differ (they have different lengths). -/
theorem c1_counterexample :
    classified_source_to_html [⟨"", Delim.str "", "a"⟩, ⟨"", Delim.str "", "b\n"⟩] ≠
      some (classified_source_to_html_spec
        [⟨"", Delim.str "", "a"⟩, ⟨"", Delim.str "", "b\n"⟩]) := by
  have e1 : escapeHTML (jsStripNl "a") = "a" := rfl
  have e2 : contChunk (Delim.str "") "b\n" = "b" := rfl
  have hc : classified_source_to_html
      [⟨"", Delim.str "", "a"⟩, ⟨"", Delim.str "", "b\n"⟩] =
      some (String.join [aceOpen 1, "a", "\n", "b", codeClose]) := by
    simp [classified_source_to_html, runSteps, step, initSt, openChunks,
      exit_state, e1, e2, jsMatchNl]
  have hs : classified_source_to_html_spec
      [⟨"", Delim.str "", "a"⟩, ⟨"", Delim.str "", "b\n"⟩] =
      String.join [aceOpen 1, "a", "", "b", codeClose] := by
    simp [classified_source_to_html_spec, runSpec, stepSpec, initSpecSt,
      openChunks, exit_state, e1, e2, jsMatchNl]
  rw [hc, hs]
  intro h
  have hlen := congrArg String.length (Option.some.injEq .. ▸ h)
  simp [String.join, String.length_append] at hlen
  exact absurd hlen (by decide)

/-- C1, amended: for every input sequence in which each triple's content
ends with a newline, `classified_source_to_html` implements the
trailing-newline-migration rule exactly as the spec words it: one trailing
newline is removed from each content before emission, and on a
continuation triple of the same delimiter the removed newline is
reinserted before that triple's content (under the hypothesis the
newline pushed by the source, stripped from the current triple, coincides
with the one deferred from the previous triple; without it the source
instead crashes or inserts the current triple's own newline, as
`c1_counterexample` shows). -/
theorem c1_newline_migration (input : List Triple)
    (h : ∀ t ∈ input, t.contents.data.getLast? = some '\n') :
    classified_source_to_html input =
      some (classified_source_to_html_spec input) := by
  have hrun := runSteps_eq_runSpec input initSpecSt (Or.inl rfl) h
  show (runSteps initSt input).map _ = _
  rw [show initSt = projSpec initSpecSt from rfl, hrun]
  rfl

/-- Witness for C1 at a concrete input. -/
theorem c1_witness :
    classified_source_to_html [⟨"", Delim.str "#", "x\n"⟩] =
      some (classified_source_to_html_spec [⟨"", Delim.str "#", "x\n"⟩]) :=
  c1_newline_migration _ (by decide)

lemma splitRun_append (d : Delim) (ts : List Triple) :
    (splitRun d ts).1 ++ (splitRun d ts).2 = ts := by
  induction ts with
  | nil => rfl
  | cons t ts ih =>
    by_cases h : t.delimiter = d <;> simp [splitRun, h, ih]

lemma splitRun_run_delim (d : Delim) (ts : List Triple) :
    ∀ u ∈ (splitRun d ts).1, u.delimiter = d := by
  induction ts with
  | nil => intro u hu; simp [splitRun] at hu
  | cons t ts ih =>
    intro u hu
    by_cases h : t.delimiter = d
    · simp only [splitRun, if_pos h, List.mem_cons] at hu
      rcases hu with hu | hu
      · rw [hu]; exact h
      · exact ih u hu
    · simp [splitRun, h] at hu

lemma splitRun_rest_head (d : Delim) (ts : List Triple) (r : Triple) (rs : List Triple)
    (h : (splitRun d ts).2 = r :: rs) : r.delimiter ≠ d := by
  induction ts with
  | nil => simp [splitRun] at h
  | cons t ts ih =>
    by_cases hd : t.delimiter = d
    · simp only [splitRun, if_pos hd] at h
      exact ih h
    · simp only [splitRun, if_neg hd] at h
      injection h with h1 _
      rw [← h1]
      exact hd

lemma splitRun_rest_length (d : Delim) (ts : List Triple) :
    (splitRun d ts).2.length ≤ ts.length := by
  induction ts with
  | nil => simp [splitRun]
  | cons t ts ih =>
    by_cases h : t.delimiter = d
    · simp only [splitRun, if_pos h]
      exact le_trans ih (Nat.le_succ _)
    · simp [splitRun, h]

lemma groupRuns_cons_split (ts : List Triple) : ∀ t,
    groupRuns (t :: ts) =
      (t, (splitRun t.delimiter ts).1) :: groupRuns (splitRun t.delimiter ts).2 := by
  induction ts with
  | nil => intro t; rfl
  | cons u ts ih =>
    intro t
    show (match groupRuns (u :: ts) with
          | [] => [(t, [])]
          | (v, run) :: gs =>
            if t.delimiter = v.delimiter then (t, v :: run) :: gs
            else (t, []) :: (v, run) :: gs) = _
    rw [ih u]
    by_cases h : t.delimiter = u.delimiter
    · simp [splitRun, h]
    · simp [splitRun, h, Ne.symm h, ih u]

lemma runSteps_append (a b : List Triple) : ∀ st : St,
    runSteps st (a ++ b) = (runSteps st a).bind (fun s => runSteps s b) := by
  induction a with
  | nil => intro st; rfl
  | cons t a ih =>
    intro st
    show (match step st t with
          | none => none
          | some s => runSteps s (a ++ b)) = _
    cases h : step st t with
    | none => simp [runSteps, h]
    | some s => simp [runSteps, h, ih s]

lemma step_continue (st : St) (u : Triple) (d : Delim)
    (hcur : st.current = CurDelim.val d) (hud : u.delimiter = d)
    (hm : jsMatchNl u.contents = some "\n") :
    step st u = some
      { html := st.html ++ ["\n", contChunk d u.contents],
        current := CurDelim.val u.delimiter,
        line := st.line + 1 + termCount (jsStripNl u.contents).data } := by
  have hcond : ¬ st.current ≠ CurDelim.val u.delimiter := by
    rw [hcur, hud]
    exact not_not_intro rfl
  simp only [step, if_neg hcond, hm]
  rw [hud]

lemma runSteps_run (run : List Triple) : ∀ (st : St) (d : Delim),
    st.current = CurDelim.val d →
    (∀ u ∈ run, u.delimiter = d ∧ u.contents.data.getLast? = some '\n') →
    runSteps st run = some (afterRun st d run) := by
  induction run with
  | nil =>
    intro st d hcur hall
    simp [runSteps, afterRun, interChunks, runLinesCount]
  | cons u run ih =>
    intro st d hcur hall
    obtain ⟨hud, hunl⟩ := hall u (List.mem_cons_self u run)
    have hm : jsMatchNl u.contents = some "\n" := by simp [jsMatchNl, hunl]
    simp only [runSteps, step_continue st u d hcur hud hm]
    rw [ih { html := st.html ++ ["\n", contChunk d u.contents],
             current := CurDelim.val u.delimiter,
             line := st.line + 1 + termCount (jsStripNl u.contents).data } d
          (by show CurDelim.val u.delimiter = CurDelim.val d; rw [hud])
          (fun v hv => hall v (List.mem_cons_of_mem u hv))]
    simp only [Option.some.injEq, afterRun, St.mk.injEq]
    refine ⟨?_, ?_, ?_⟩
    · simp [interChunks]
    · rw [hud, hcur]
    · simp [runLinesCount]
      omega

lemma step_change (st : St) (t : Triple)
    (hcur : st.current ≠ CurDelim.val t.delimiter) :
    step st t = some (afterOpen st t) := by
  simp [step, afterOpen, hcur]

lemma runSteps_renderGroups : ∀ (n : Nat) (ts : List Triple) (st : St),
    ts.length ≤ n →
    (∀ t ∈ ts, t.contents.data.getLast? = some '\n') →
    (∀ r rs, ts = r :: rs → st.current ≠ CurDelim.val r.delimiter) →
    (runSteps st ts).map (fun st2 => st2.html ++ exit_state st2.current) =
      some (st.html ++ exit_state st.current ++ renderGroups st.line (groupRuns ts)) := by
  intro n
  induction n with
  | zero =>
    intro ts st hlen _ _
    have hts : ts = [] := List.eq_nil_of_length_eq_zero (Nat.le_zero.mp hlen)
    subst hts
    simp [runSteps, groupRuns, renderGroups]
  | succ n ih =>
    intro ts st hlen hnl hhead
    cases ts with
    | nil => simp [runSteps, groupRuns, renderGroups]
    | cons t ts' =>
      have hcur : st.current ≠ CurDelim.val t.delimiter := hhead t ts' rfl
      obtain ⟨run, rest, hrun, hrest⟩ :
          ∃ run rest, (splitRun t.delimiter ts').1 = run ∧
            (splitRun t.delimiter ts').2 = rest := ⟨_, _, rfl, rfl⟩
      have hsplit : run ++ rest = ts' := by
        rw [← hrun, ← hrest]
        exact splitRun_append t.delimiter ts'
      have hmemrun : ∀ u ∈ run, u ∈ ts' := by
        intro u hu
        rw [← hsplit]
        exact List.mem_append_left _ hu
      have hmemrest : ∀ u ∈ rest, u ∈ ts' := by
        intro u hu
        rw [← hsplit]
        exact List.mem_append_right _ hu
      have hC : runSteps (afterOpen st t) run =
          some (afterRun (afterOpen st t) t.delimiter run) :=
        runSteps_run run (afterOpen st t) t.delimiter rfl
          (fun u hu => ⟨splitRun_run_delim t.delimiter ts' u (hrun ▸ hu),
            hnl u (List.mem_cons_of_mem t (hmemrun u hu))⟩)
      have hD : runSteps st (t :: ts') =
          runSteps (afterRun (afterOpen st t) t.delimiter run) rest := by
        show (match step st t with
              | none => none
              | some st2 => runSteps st2 ts') = _
        rw [step_change st t hcur]
        show runSteps (afterOpen st t) ts' = _
        conv_lhs => rw [← hsplit]
        rw [runSteps_append, hC]
        rfl
      have hgroup : groupRuns (t :: ts') = (t, run) :: groupRuns rest := by
        rw [groupRuns_cons_split ts' t, hrun, hrest]
      rw [hD, hgroup]
      cases hr : rest with
      | nil =>
        subst hr
        simp [runSteps, renderGroups, renderRun, afterOpen, afterRun,
          List.append_assoc]
      | cons r rs =>
        have hlen2 : rest.length ≤ n := by
          have h1 := splitRun_rest_length t.delimiter ts'
          rw [hrest] at h1
          have h2 : ts'.length ≤ n := Nat.le_of_succ_le_succ hlen
          omega
        have hne : (afterRun (afterOpen st t) t.delimiter run).current ≠
            CurDelim.val r.delimiter := by
          show CurDelim.val t.delimiter ≠ CurDelim.val r.delimiter
          intro hcontra
          injection hcontra with hdd
          exact splitRun_rest_head t.delimiter ts' r rs (hrest.symm ▸ hr) hdd.symm
        have ihr := ih rest (afterRun (afterOpen st t) t.delimiter run)
          hlen2
          (fun u hu => hnl u (List.mem_cons_of_mem t (hmemrest u hu)))
          (by
            intro r2 rs2 hr2
            rw [hr] at hr2
            injection hr2 with hr21 _
            rw [← hr21]
            exact hne)
        rw [← hr, ihr]
        simp [renderGroups, renderRun, afterOpen, afterRun, List.append_assoc]

/-- C5 counterexample: the claim fails as stated.  On the input
`[["", "#", "a\n"], ["", "#", "b"]]` — two consecutive triples with the
same delimiter, the second without a trailing newline — the source throws
a `TypeError` (`m[0]` with `m = null` on the continuation line), so
nothing at all is rendered, while the claim promises one merged TinyMCE
region. -/
theorem c5_counterexample :
    classified_source_to_html
        [⟨"", Delim.str "#", "a\n"⟩, ⟨"", Delim.str "#", "b"⟩] = none
    ∧ classified_source_to_html
        [⟨"", Delim.str "#", "a\n"⟩, ⟨"", Delim.str "#", "b"⟩] ≠
      some (String.join (renderGroups 1 (groupRuns
        [⟨"", Delim.str "#", "a\n"⟩, ⟨"", Delim.str "#", "b"⟩]))) := by
  have h1 : classified_source_to_html
      [⟨"", Delim.str "#", "a\n"⟩, ⟨"", Delim.str "#", "b"⟩] = none := by decide
  exact ⟨h1, by rw [h1]; simp⟩

/-- C5, amended: for every input sequence in which each triple's content
ends with a newline, the output is exactly the concatenation, over maximal
runs of equal delimiters, of one editor region per run (one ACE or
TinyMCE opening via `openChunks`, the run's stripped contents separated by
the reinserted newlines via `interChunks`, and the closing markup of
`_exit_state`): consecutive same-delimiter triples merge into a single
editor block, newline-preserving. -/
theorem c5_run_merging (input : List Triple)
    (h : ∀ t ∈ input, t.contents.data.getLast? = some '\n') :
    classified_source_to_html input =
      some (String.join (renderGroups 1 (groupRuns input))) := by
  have hmain := runSteps_renderGroups input.length input initSt le_rfl h
    (fun r rs _ => by simp [initSt])
  cases hrs : runSteps initSt input with
  | none =>
    rw [hrs] at hmain
    simp at hmain
  | some stf =>
    rw [hrs] at hmain
    simp only [Option.map_some'] at hmain
    have hinit : initSt.html ++ exit_state initSt.current ++
        renderGroups initSt.line (groupRuns input) =
        renderGroups 1 (groupRuns input) := rfl
    rw [hinit] at hmain
    show (runSteps initSt input).map
      (fun st => String.join (st.html ++ exit_state st.current)) = _
    rw [hrs]
    show some (String.join (stf.html ++ exit_state stf.current)) = _
    injection hmain with hmain2
    rw [hmain2]

/-- Witness for C5 at a concrete input. -/
theorem c5_witness :
    classified_source_to_html [⟨"", Delim.str "#", "y\n"⟩] =
      some (String.join (renderGroups 1 (groupRuns [⟨"", Delim.str "#", "y\n"⟩]))) :=
  c5_run_merging _ (by decide)

lemma getLast?_tail {c : Char} {rest : List Char}
    (h : (c :: rest).getLast? ≠ some '\r') : rest.getLast? ≠ some '\r' := by
  cases rest with
  | nil => simp
  | cons b l => rwa [List.getLast?_cons_cons] at h

lemma termCount_append_lf : ∀ d : List Char, d.getLast? ≠ some '\r' →
    termCount (d ++ ['\n']) = termCount d + 1 := by
  intro d
  induction d using termCount.induct with
  | case1 => intro _; rfl
  | case2 rest ih =>
    intro h
    rw [List.cons_append, termCount.eq_2, termCount.eq_2, ih (getLast?_tail h)]
  | case3 rest ih =>
    intro h
    rw [List.cons_append, List.cons_append, termCount.eq_3, termCount.eq_3,
      ih (getLast?_tail (getLast?_tail h))]
  | case4 rest hcond ih =>
    intro h
    cases rest with
    | nil => simp at h
    | cons x rs =>
      have hx : (x :: rs) ++ ['\n'] = x :: (rs ++ ['\n']) := List.cons_append ..
      have hxn : x ≠ '\n' := fun hxe => hcond rs (by rw [hxe])
      rw [List.cons_append, termCount.eq_4 _ (by
          intro r1 hr1
          rw [hx] at hr1
          injection hr1 with h1 _
          exact hxn h1),
        termCount.eq_4 _ (by
          intro r1 hr1
          injection hr1 with h1 _
          exact hxn h1),
        ih (getLast?_tail h)]
  | case5 c rest h1 h2 h3 ih =>
    intro h
    rw [List.cons_append,
      termCount.eq_5 c _ h1 (fun r1 hc _ => h3 hc) h3,
      termCount.eq_5 c rest h1 h2 h3,
      ih (getLast?_tail h)]

lemma runLines_claimLines : ∀ (ts : List Triple) (st : St) (total : Nat),
    st.line = 1 + total →
    (∀ t ∈ ts, ∃ dd, t.contents.data = dd ++ ['\n'] ∧ dd.getLast? ≠ some '\r') →
    runLines st ts = some (claimLines st.current total ts) := by
  intro ts
  induction ts with
  | nil => intro st total _ _; rfl
  | cons t ts ih =>
    intro st total hline hall
    obtain ⟨dd, hdata, hdr⟩ := hall t (List.mem_cons_self t ts)
    have hlast : t.contents.data.getLast? = some '\n' := by
      rw [hdata]
      exact List.getLast?_concat _
    have hm : jsMatchNl t.contents = some "\n" := by simp [jsMatchNl, hlast]
    have hstrip : (jsStripNl t.contents).data = dd := by
      have hs : jsStripNl t.contents = String.mk t.contents.data.dropLast := by
        simp [jsStripNl, hlast]
      rw [hs]
      show t.contents.data.dropLast = dd
      rw [hdata]
      exact List.dropLast_concat
    have htc : termCount (jsStripNl t.contents).data + 1 = termCount t.contents.data := by
      rw [hstrip, hdata, termCount_append_lf dd hdr]
    have hrest : ∀ u ∈ ts, ∃ dd, u.contents.data = dd ++ ['\n'] ∧
        dd.getLast? ≠ some '\r' :=
      fun u hu => hall u (List.mem_cons_of_mem t hu)
    by_cases hc : st.current ≠ CurDelim.val t.delimiter
    · simp only [runLines, step_change st t hc]
      rw [ih (afterOpen st t) (total + termCount t.contents.data)
        (by show st.line + 1 + termCount (jsStripNl t.contents).data = _; omega)
        hrest]
      show some ((if st.current ≠ CurDelim.val t.delimiter ∧
          t.delimiter = Delim.str "" then [st.line] else []) ++
        claimLines (CurDelim.val t.delimiter) (total + termCount t.contents.data) ts) = _
      rw [hline]
      rfl
    · simp only [runLines, step_continue st t t.delimiter (not_not.mp hc) rfl hm]
      rw [ih { html := st.html ++ ["\n", contChunk t.delimiter t.contents],
               current := CurDelim.val t.delimiter,
               line := st.line + 1 + termCount (jsStripNl t.contents).data }
        (total + termCount t.contents.data)
        (by show st.line + 1 + termCount (jsStripNl t.contents).data = _; omega)
        hrest]
      show some ((if st.current ≠ CurDelim.val t.delimiter ∧
          t.delimiter = Delim.str "" then [st.line] else []) ++
        claimLines (CurDelim.val t.delimiter) (total + termCount t.contents.data) ts) = _
      have hfalse : ¬ (st.current ≠ CurDelim.val t.delimiter ∧
          t.delimiter = Delim.str "") := fun hand => hc hand.1
      show _ = some ((if st.current ≠ CurDelim.val t.delimiter ∧
          t.delimiter = Delim.str "" then [1 + total] else []) ++
        claimLines (CurDelim.val t.delimiter) (total + termCount t.contents.data) ts)
      rw [if_neg hfalse, if_neg hfalse]

/-- C10 counterexample: the claim fails as stated.  The input has every
content ending in a newline, but the first content ends in `"\r\n"`:
stripping the final `\n` leaves a bare `\r`, which `/\n|\r\n|\r/g` then
counts as a terminator of its own, so the `\r\n` pair is double-counted
and the second code block opens with attribute 4 where the claim predicts
1 + 2 = 3 terminators-so-far. -/
theorem c10_counterexample :
    firstLineNumbers [⟨"", Delim.str "", "x\r\n"⟩, ⟨"", Delim.str "#", "c\n"⟩,
        ⟨"", Delim.str "", "z\n"⟩] = some [1, 4]
    ∧ claimLines CurDelim.sentinel 0 [⟨"", Delim.str "", "x\r\n"⟩,
        ⟨"", Delim.str "#", "c\n"⟩, ⟨"", Delim.str "", "z\n"⟩] = [1, 3]
    ∧ (∀ t ∈ [(⟨"", Delim.str "", "x\r\n"⟩ : Triple), ⟨"", Delim.str "#", "c\n"⟩,
        ⟨"", Delim.str "", "z\n"⟩], t.contents.data.getLast? = some '\n') := by
  refine ⟨by decide, by decide, by decide⟩

/-- C10, amended: for every input sequence in which each triple's content
ends with a newline whose preceding character is not `\r` (i.e. the
content does not end in `"\r\n"`), the `data-CodeChat-firstLineNumber`
attribute emitted at each code-block opening equals 1 plus the total
number of line terminators (`\n`, `\r\n`, or `\r`) in the contents of all
earlier triples. -/
theorem c10_first_line_numbers (input : List Triple)
    (h : ∀ t ∈ input, ∃ dd, t.contents.data = dd ++ ['\n'] ∧
      dd.getLast? ≠ some '\r') :
    firstLineNumbers input = some (claimLines CurDelim.sentinel 0 input) :=
  runLines_claimLines input initSt 0 rfl h

/-- Witness for C10 at a concrete input. -/
theorem c10_witness :
    firstLineNumbers [⟨"", Delim.str "", "w\n"⟩] =
      some (claimLines CurDelim.sentinel 0 [⟨"", Delim.str "", "w\n"⟩]) :=
  c10_first_line_numbers _ (by
    intro t ht
    simp only [List.mem_singleton] at ht
    subst ht
    exact ⟨['w'], rfl, by decide⟩)

end CodeChatEditor
